import Mathlib

/-!
Verification of the "generic collection engine" described by this repository's
data-structure narrations: a growable sequence (dynamic array), an
insertion-ordered hash map (compact dict: dense Entry Store + Sparse Index),
a hash set, and an adaptive stable sort (timsort).

The repository contains no executable implementation of these structures: the
source files narrate them in module docstrings (with a few concrete formulas,
such as the list growth formula and the dict resize sizing rule, given as code
snippets inside those docstrings).  Where a docstring states a concrete
formula, the Lean definition below translates that formula; everything else is
modelled from the specification's words, and each such definition says so in
its doc comment.
-/

namespace PyDS

/-- Error kinds of the engine (spec section 7): allocation failure during
growth/resize, and sequence access past bounds.  Key absence is represented by
`Option`, never by an error. -/
inductive Err where
  | outOfMemory
  | indexOutOfRange
deriving DecidableEq, Repr

/-! ## Growable Sequence (dynamic array)

Modelled from the spec: a contiguous buffer with logical length `len` and
capacity `cap`, `len ≤ cap`.  The growth formula is translated from the C
snippet in `python_data_structures_deep_dive.py` (GROWTH ALGORITHM):
`new_allocated = (newsize >> 3) + (newsize < 9 ? 3 : 6); new_allocated += newsize`
where `newsize` is the requested length `len + 1`. -/

structure GSeq (α : Type _) where
  data : List α
  cap : Nat
deriving Repr

/-- Logical element count of the sequence. -/
def GSeq.len (s : GSeq α) : Nat := s.data.length

/-- The docstring's growth formula, for a requested new size of `len + 1`:
`(newsize >> 3) + (newsize < 9 ? 3 : 6) + newsize`. -/
def growCap (len : Nat) : Nat :=
  (len + 1) / 8 + (if len + 1 < 9 then 3 else 6) + (len + 1)

/-- Modelled from the spec: `append` writes `x` at index `len` and increments
`len`; when `len == cap` it first reallocates using the docstring's growth
formula. -/
def GSeq.append (s : GSeq α) (x : α) : GSeq α :=
  if s.len = s.cap then ⟨s.data ++ [x], growCap s.len⟩
  else ⟨s.data ++ [x], s.cap⟩

/-- Modelled from the spec: `get(i)` is O(1) and fails with `IndexOutOfRange`
when `i ≥ len`. -/
def GSeq.get (s : GSeq α) (i : Nat) : Except Err α :=
  if h : i < s.data.length then .ok (s.data.get ⟨i, h⟩)
  else .error .indexOutOfRange

/-- Modelled from the spec: `set(i, x)` fails with `IndexOutOfRange` when
`i ≥ len`. -/
def GSeq.set (s : GSeq α) (i : Nat) (x : α) : Except Err (GSeq α) :=
  if i < s.len then .ok ⟨s.data.set i x, s.cap⟩
  else .error .indexOutOfRange

/-- Modelled from the spec: `insert(i, x)` shifts the tail and fails with
`IndexOutOfRange` when `i > len` (insertion at `i == len` succeeds); the
buffer grows as for `append` when it is full. -/
def GSeq.insertAt (s : GSeq α) (i : Nat) (x : α) : Except Err (GSeq α) :=
  if i ≤ s.len then
    .ok ⟨s.data.take i ++ x :: s.data.drop i,
         if s.len = s.cap then growCap s.len else s.cap⟩
  else .error .indexOutOfRange

/-- Modelled from the spec: `remove(i)` shifts the tail and fails with
`IndexOutOfRange` when `i ≥ len`. -/
def GSeq.removeAt (s : GSeq α) (i : Nat) : Except Err (GSeq α) :=
  if i < s.len then .ok ⟨s.data.eraseIdx i, s.cap⟩
  else .error .indexOutOfRange

/-! ## Sparse-index sizing formulas (dict/set resize)

The claim-relevant resize sizing.  `specNewSize` is the rule stated by the
specification (and by CPython): `4 × live_count`, or `2 × live_count` once
`live_count` exceeds the large threshold 50000.  `docNewSize` is the literal
transcription of the docstring line in `python_data_structures_deep_dive.py`
(RESIZING STRATEGY): "New size = 4 * used_slots (if used > 50k, else
2 * used_slots)", whose branches are swapped relative to the specification. -/

/-- Modelled from the spec: new Sparse Index size after a resize with
`live_count = n`: `4 × n`, or `2 × n` when `n` exceeds the large threshold. -/
def specNewSize (n : Nat) : Nat := if 50000 < n then 2 * n else 4 * n

/-- The docstring's resize sizing as literally written: `4 * used_slots` if
`used > 50k`, else `2 * used_slots`. -/
def docNewSize (n : Nat) : Nat := if 50000 < n then 4 * n else 2 * n

/-! ## Timsort minimum run length

`minrunDoc` is the literal formula in the TIMSORT docstring of
`python_data_structures_deep_dive.py` (RUN DETECTION):
`minrun = n//64 + (1 if n%64 else 0)`.  `minrunSpec` is the classic
computation the specification describes: halve `n` until it is below 64,
recording in `r` whether any shaved-off bit was set, then return `n + r`.
The fuel argument of the auxiliary bounds the number of halving steps; `n`
halvings always suffice. -/

/-- The docstring's minimum-run-length formula as literally written. -/
def minrunDoc (n : Nat) : Nat := n / 64 + (if n % 64 = 0 then 0 else 1)

/-- Modelled from the spec: auxiliary halving loop for the classic `min_run`
computation, structurally recursive on a fuel bound. -/
def minrunAux : Nat → Nat → Nat → Nat
  | 0, n, r => n + r
  | fuel + 1, n, r => if n < 64 then n + r else minrunAux fuel (n / 2) (r ||| n % 2)

/-- Modelled from the spec: classic `min_run`, derived by halving `n` until it
is below 64, taking the remainder into account. -/
def minrunSpec (n : Nat) : Nat := minrunAux n n 0

/-! ## Ordered Hash Map (compact dict)

Modelled from the spec: the map owns an Entry Store — a dense, append-only
sequence of `(hash, key, value, state)` records, deletions marking a
`Tombstone` in place — and a Sparse Index of `cap_idx` slots.  The spec's
Sparse Index invariant states that for every live key exactly one slot along
its probe sequence refers to the unique live entry with that key, so the
probe walk's observable effect is: locate the first (indeed only) live entry
of the store whose key is equal.  Lookup and update are therefore modelled
as a first-live-match traversal of the Entry Store; the Sparse Index itself
is modelled by its capacity `capIdx`, which is what the load-factor and
resize-sizing claims are about.  Resizing rebuilds the index (re-probing
live entries in Entry-Store order) and leaves the Entry Store untouched. -/

/-- An Entry-Store record: `{hash, key, value, state: Live | Tombstone}`,
with `live = true` for `Live`. -/
structure Entry (K V : Type _) where
  hash : Nat
  key : K
  value : V
  live : Bool
deriving DecidableEq, Repr

variable {K V : Type _} [DecidableEq K]

/-- The live `(key, value)` pairs of an Entry Store, in store order —
exactly what `keys()/values()/items()` iterate (tombstones skipped). -/
def liveItemsL : List (Entry K V) → List (K × V)
  | [] => []
  | e :: t => if e.live then (e.key, e.value) :: liveItemsL t else liveItemsL t

/-- Whether the store holds a live entry with the given key. -/
def hasLiveL (l : List (Entry K V)) (k : K) : Bool :=
  l.any fun e => e.live && decide (e.key = k)

/-- Update in place the value of the first live entry with the given key. -/
def updateLiveL : List (Entry K V) → K → V → List (Entry K V)
  | [], _, _ => []
  | e :: t, k, v =>
    if e.live && decide (e.key = k) then { e with value := v } :: t
    else e :: updateLiveL t k v

/-- Mark the first live entry with the given key as a Tombstone. -/
def tombstoneL : List (Entry K V) → K → List (Entry K V)
  | [], _ => []
  | e :: t, k =>
    if e.live && decide (e.key = k) then { e with live := false } :: t
    else e :: tombstoneL t k

/-- Modelled from the spec: an Ordered Hash Map is an Entry Store plus a
Sparse Index, the latter represented by its capacity. -/
structure OMap (K V : Type _) where
  entries : List (Entry K V)
  capIdx : Nat
deriving Repr

/-- Modelled from the spec: a fresh map; the Sparse Index starts with size 8. -/
def OMap.empty : OMap K V := ⟨[], 8⟩

/-- `items()`: live `(key, value)` pairs in Entry-Store order. -/
def OMap.items (m : OMap K V) : List (K × V) := liveItemsL m.entries

/-- `keys()`: live keys in Entry-Store order. -/
def OMap.keysList (m : OMap K V) : List K := m.items.map Prod.fst

/-- Number of live entries. -/
def OMap.liveCount (m : OMap K V) : Nat := m.items.length

/-- Modelled from the spec: after an insertion, if `live_count / cap_idx >
2/3` (written multiplicatively: `3·live > 2·cap`), allocate a new Sparse
Index of `specNewSize live_count` slots and re-probe every live entry in
Entry-Store order; the Entry Store is untouched. -/
def OMap.maybeResize (m : OMap K V) : OMap K V :=
  if 2 * m.capIdx < 3 * m.liveCount then ⟨m.entries, specNewSize m.liveCount⟩
  else m

/-- Modelled from the spec: `insert(key, value)` — update the live entry in
place when the key is present, otherwise append a fresh live entry to the
Entry Store; then resize if the load factor bound is violated.  `hf` is the
host hash function, recorded in the entry. -/
def OMap.insert (hf : K → Nat) (m : OMap K V) (k : K) (v : V) : OMap K V :=
  OMap.maybeResize
    (if hasLiveL m.entries k then ⟨updateLiveL m.entries k v, m.capIdx⟩
     else ⟨m.entries ++ [⟨hf k, k, v, true⟩], m.capIdx⟩)

/-- Modelled from the spec: `get(key)` — probe to the unique live entry with
an equal key and return its value; absence is `none`, never an error. -/
def OMap.get (m : OMap K V) (k : K) : Option V :=
  (m.entries.find? fun e => e.live && decide (e.key = k)).map Entry.value

/-- Modelled from the spec: `contains(key)`. -/
def OMap.containsKey (m : OMap K V) (k : K) : Bool := hasLiveL m.entries k

/-- Modelled from the spec: `remove(key)` — mark the entry `Tombstone` in
place; tombstones are only purged during a resize. -/
def OMap.remove (m : OMap K V) (k : K) : OMap K V :=
  ⟨tombstoneL m.entries k, m.capIdx⟩

/-- Modelled from the spec: `clear()` — reset both owned buffers to
empty/minimum capacity. -/
def OMap.clear (_m : OMap K V) : OMap K V := OMap.empty

/-- A mutating map operation. -/
inductive MapOp (K V : Type _) where
  | ins (k : K) (v : V)
  | del (k : K)
  | clr
deriving Repr

/-- Apply one operation. -/
def applyOp (hf : K → Nat) (m : OMap K V) : MapOp K V → OMap K V
  | .ins k v => m.insert hf k v
  | .del k => m.remove k
  | .clr => m.clear

/-- Apply a finite sequence of operations in order. -/
def applyOps (hf : K → Nat) (m : OMap K V) (ops : List (MapOp K V)) : OMap K V :=
  ops.foldl (applyOp hf) m

/-- Run a finite sequence of operations on the empty map. -/
def runOps (hf : K → Nat) (ops : List (MapOp K V)) : OMap K V :=
  applyOps hf OMap.empty ops

/-! ### Insertion-order reference model

Modelled from the spec's words for the insertion-order property (spec
section 8): iteration yields exactly the keys currently present, in the
order they were first inserted, an in-place value update keeping the key's
position and removal-then-reinsertion moving it to the end.  The reference
is an association list: insert updates the first matching pair in place or
appends a new pair at the end; remove deletes the first matching pair. -/

/-- Reference insert: update in place, or append at the end. -/
def refInsert : List (K × V) → K → V → List (K × V)
  | [], k, v => [(k, v)]
  | p :: t, k, v => if p.1 = k then (k, v) :: t else p :: refInsert t k v

/-- Reference remove: delete the first pair with the given key. -/
def refRemove : List (K × V) → K → List (K × V)
  | [], _ => []
  | p :: t, k => if p.1 = k then t else p :: refRemove t k

/-- Reference interpretation of one operation. -/
def refApply : List (K × V) → MapOp K V → List (K × V)
  | r, .ins k v => refInsert r k v
  | r, .del k => refRemove r k
  | _, .clr => []

/-- Reference interpretation of an operation sequence. -/
def refRun (ops : List (MapOp K V)) : List (K × V) :=
  ops.foldl refApply []

/-! ### Fallible insert (allocation-aware resize)

Modelled from the spec: a resize requires a transient auxiliary allocation;
it is committed only after the new Sparse Index is fully built.  The host
allocator is modelled as an oracle `alloc : Nat → Bool` saying whether a
buffer of the requested size can be allocated.  On allocation failure the
operation aborts with `OutOfMemory`, committing nothing (spec section 7:
"never commit a mutation that didn't fully succeed"), so the returned map is
the untouched input map.  `get` and `remove` perform no allocation and are
total functions — they never fail. -/

/-- Modelled from the spec: `insert` with a fallible resize allocation.
Returns the resulting map and `some OutOfMemory` exactly when the resize's
allocation failed, in which case the map is returned unchanged. -/
def OMap.insertTry (alloc : Nat → Bool) (hf : K → Nat) (m : OMap K V)
    (k : K) (v : V) : OMap K V × Option Err :=
  let m1 : OMap K V :=
    if hasLiveL m.entries k then ⟨updateLiveL m.entries k v, m.capIdx⟩
    else ⟨m.entries ++ [⟨hf k, k, v, true⟩], m.capIdx⟩
  if 2 * m1.capIdx < 3 * m1.liveCount then
    if alloc (specNewSize m1.liveCount) then
      (⟨m1.entries, specNewSize m1.liveCount⟩, none)
    else (m, some .outOfMemory)
  else (m1, none)

/-! ## Hash Set

Modelled from the spec: a Hash Set is an Ordered Hash Map whose value type
is the unit type; a key's presence is exactly membership.  The set-algebra
operations iterate the smaller operand (ties iterate the second operand)
and test membership in the larger, per spec section 4.3. -/

/-- A Hash Set: an Ordered Hash Map with unit values. -/
def HSet (K : Type _) : Type _ := OMap K Unit

/-- The empty set. -/
def HSet.empty : HSet K := OMap.empty

/-- Membership: exactly presence of the key in the underlying map. -/
def HSet.member (s : HSet K) (k : K) : Bool := OMap.containsKey s k

/-- `add(key)`: insert the key with the unit value. -/
def HSet.add (hf : K → Nat) (s : HSet K) (k : K) : HSet K :=
  OMap.insert hf s k ()

/-- `remove(key)`. -/
def HSet.removeKey (s : HSet K) (k : K) : HSet K := OMap.remove s k

/-- Iteration order of the set: live keys in insertion order. -/
def HSet.keys (s : HSet K) : List K := OMap.keysList s

/-- Number of members. -/
def HSet.size (s : HSet K) : Nat := OMap.liveCount s

/-- Add every key of a list into a set, in order. -/
def HSet.foldAdd (hf : K → Nat) (s : HSet K) (ks : List K) : HSet K :=
  ks.foldl (fun s k => HSet.add hf s k) s

/-- Modelled from the spec: `union(other)` — start from a copy of the larger
set and `add` every element of the smaller into it. -/
def HSet.union (hf : K → Nat) (a b : HSet K) : HSet K :=
  if b.size ≤ a.size then HSet.foldAdd hf a b.keys
  else HSet.foldAdd hf b a.keys

/-- Modelled from the spec: `intersection(other)` — iterate the smaller set,
test membership in the larger, collect the matches. -/
def HSet.inter (hf : K → Nat) (a b : HSet K) : HSet K :=
  if b.size ≤ a.size then
    HSet.foldAdd hf HSet.empty (b.keys.filter fun k => a.member k)
  else
    HSet.foldAdd hf HSet.empty (a.keys.filter fun k => b.member k)

/-- Modelled from the spec: `difference(self, other)` — iterate `self`, keep
the elements absent from `other`. -/
def HSet.diff (hf : K → Nat) (a b : HSet K) : HSet K :=
  HSet.foldAdd hf HSet.empty (a.keys.filter fun k => ! b.member k)

/-- A mutating set operation. -/
inductive SetOp (K : Type _) where
  | add (k : K)
  | del (k : K)
  | clr

/-- A set operation as the map operation it delegates to. -/
def SetOp.toMapOp : SetOp K → MapOp K Unit
  | .add k => .ins k ()
  | .del k => .del k
  | .clr => .clr

/-- Run a finite sequence of set operations on the empty set. -/
def runSetOps (hf : K → Nat) (ops : List (SetOp K)) : HSet K :=
  runOps hf (ops.map SetOp.toMapOp)

/-! ## Adaptive Stable Sort (timsort)

Modelled from the spec (section 4.4), on a functional representation: the
pending-run stack is a list of runs with the topmost (rightmost) run at the
head, and the target sequence is a `List α`.  The comparator is
`cmp : α → α → Ordering` as in the spec.  Galloping is omitted, which the
spec's design notes explicitly allow ("an optimization, not a correctness
requirement").  The binary-insertion step of the minimum-run extension is
modelled by its insertion effect: the new element is placed after all
elements not strictly greater than it — the position the spec's binary
search ("insert after all equal elements") computes. -/

/-- Modelled from the spec: stable two-way merge of two adjacent runs; ties
resolve to the left-hand (earlier) run's element first. -/
def mergeRuns (cmp : α → α → Ordering) : List α → List α → List α
  | [], r => r
  | l, [] => l
  | x :: l, y :: r =>
    if cmp x y = .gt then y :: mergeRuns cmp (x :: l) r
    else x :: mergeRuns cmp l (y :: r)

/-- Modelled from the spec: insert `x` into the sorted run, after all
elements equal to it (before the first strictly greater element). -/
def insertAfterEq (cmp : α → α → Ordering) (x : α) : List α → List α
  | [] => [x]
  | y :: t => if cmp x y = .lt then x :: y :: t else y :: insertAfterEq cmp x t

/-- Modelled from the spec: extend an ascending run while non-descending. -/
def ascRun (cmp : α → α → Ordering) : α → List α → List α × List α
  | x, [] => ([x], [])
  | x, y :: t =>
    if cmp x y = .gt then ([x], y :: t)
    else
      let p := ascRun cmp y t
      (x :: p.1, p.2)

/-- Modelled from the spec: extend a descending run while strictly
descending (ties break the run). -/
def descRun (cmp : α → α → Ordering) : α → List α → List α × List α
  | x, [] => ([x], [])
  | x, y :: t =>
    if cmp x y = .gt then
      let p := descRun cmp y t
      (x :: p.1, p.2)
    else ([x], y :: t)

/-- Modelled from the spec: extend a run to the minimum run length by
binary-inserting up to `k` further elements taken from the rest. -/
def extendRun (cmp : α → α → Ordering) : List α → Nat → List α → List α × List α
  | run, 0, rest => (run, rest)
  | run, _ + 1, [] => (run, [])
  | run, k + 1, x :: rest => extendRun cmp (insertAfterEq cmp x run) k rest

/-- Modelled from the spec: detect the next run — direction from the first
pair, a strictly descending span reversed in place — then extend it to the
minimum run length by binary insertion. -/
def nextRun (cmp : α → α → Ordering) (minrun : Nat) : List α → List α × List α
  | [] => ([], [])
  | [x] => ([x], [])
  | x :: y :: t =>
    let p :=
      if cmp x y = .gt then
        let d := descRun cmp x (y :: t)
        (d.1.reverse, d.2)
      else ascRun cmp x (y :: t)
    extendRun cmp p.1 (minrun - p.1.length) p.2

/-- Modelled from the spec: after each push, while the pending-run stack
violates `len[-3] > len[-2] + len[-1]` or `len[-2] > len[-1]`, merge two
adjacent runs among the topmost three so as to restore the invariant,
combining the smaller neighbour first.  The head of the stack is the
topmost (rightmost) run. -/
def mergeCollapse (cmp : α → α → Ordering) : List (List α) → List (List α)
  | c :: b :: a :: rest =>
    if a.length ≤ b.length + c.length then
      if a.length < c.length then mergeCollapse cmp (c :: mergeRuns cmp a b :: rest)
      else mergeCollapse cmp (mergeRuns cmp b c :: a :: rest)
    else if b.length ≤ c.length then mergeCollapse cmp (mergeRuns cmp b c :: a :: rest)
    else c :: b :: a :: rest
  | [c, b] => if b.length ≤ c.length then [mergeRuns cmp b c] else [c, b]
  | s => s
termination_by s => s.length
decreasing_by all_goals simp +arith [List.length_cons]

/-- The rest of `ascRun` is no longer than the scanned input. -/
theorem ascRun_snd_le (cmp : α → α → Ordering) :
    ∀ (x : α) (l : List α), (ascRun cmp x l).2.length ≤ l.length := by
  intro x l
  induction l generalizing x with
  | nil => simp [ascRun]
  | cons y t ih =>
    simp only [ascRun]
    split
    · simp
    · exact le_trans (ih y) (Nat.le_succ _)

/-- The rest of `descRun` is no longer than the scanned input. -/
theorem descRun_snd_le (cmp : α → α → Ordering) :
    ∀ (x : α) (l : List α), (descRun cmp x l).2.length ≤ l.length := by
  intro x l
  induction l generalizing x with
  | nil => simp [descRun]
  | cons y t ih =>
    simp only [descRun]
    split
    · exact le_trans (ih y) (Nat.le_succ _)
    · simp

/-- `extendRun` only consumes from the rest. -/
theorem extendRun_snd_le (cmp : α → α → Ordering) :
    ∀ (run : List α) (k : Nat) (rest : List α),
      (extendRun cmp run k rest).2.length ≤ rest.length := by
  intro run k
  induction k generalizing run with
  | zero => intro rest; simp [extendRun]
  | succ k ih =>
    intro rest
    cases rest with
    | nil => simp [extendRun]
    | cons x rest =>
      exact le_trans (ih (insertAfterEq cmp x run) rest) (Nat.le_succ _)

/-- On nonempty input, `nextRun` strictly consumes. -/
theorem nextRun_snd_lt (cmp : α → α → Ordering) (minrun : Nat) :
    ∀ (x : α) (t : List α),
      (nextRun cmp minrun (x :: t)).2.length < (x :: t).length := by
  intro x t
  cases t with
  | nil => simp [nextRun]
  | cons y t =>
    simp only [nextRun]
    split
    · refine lt_of_le_of_lt (extendRun_snd_le cmp _ _ _) ?_
      exact lt_of_le_of_lt (descRun_snd_le cmp x (y :: t)) (by simp)
    · refine lt_of_le_of_lt (extendRun_snd_le cmp _ _ _) ?_
      exact lt_of_le_of_lt (ascRun_snd_le cmp x (y :: t)) (by simp)

/-- Modelled from the spec: the main loop — detect the next run, push it on
the pending-run stack, restore the merge invariants, repeat until the input
is exhausted. -/
def sortLoop (cmp : α → α → Ordering) (minrun : Nat) :
    List (List α) → List α → List (List α)
  | stack, [] => stack
  | stack, x :: rest =>
    sortLoop cmp minrun
      (mergeCollapse cmp ((nextRun cmp minrun (x :: rest)).1 :: stack))
      (nextRun cmp minrun (x :: rest)).2
termination_by _ l => l.length
decreasing_by exact nextRun_snd_lt cmp minrun x rest

/-- Modelled from the spec: termination phase — repeatedly merge the two
topmost runs until one run spans the whole sequence. -/
def forceCollapse (cmp : α → α → Ordering) : List (List α) → List α
  | [] => []
  | [r] => r
  | c :: b :: rest => forceCollapse cmp (mergeRuns cmp b c :: rest)
termination_by s => s.length
decreasing_by simp +arith [List.length_cons]

/-- Modelled from the spec: the adaptive stable sort. -/
def timsort (cmp : α → α → Ordering) (l : List α) : List α :=
  forceCollapse cmp (sortLoop cmp (minrunSpec l.length) [] l)

/-- Modelled from the spec: `sorted` — the non-mutating convenience built by
copying then sorting; copying a functional list is the identity. -/
def sortedCopy (cmp : α → α → Ordering) (l : List α) : List α :=
  timsort cmp (l ++ [])

/-- The segments of the pending-run stack in array order (the head of the
stack is the rightmost run). -/
def flattenRuns (s : List (List α)) : List α := s.reverse.flatten

/-- A run sorted w.r.t. the comparator (non-descending). -/
abbrev RunSorted (cmp : α → α → Ordering) (l : List α) : Prop :=
  l.Pairwise fun a b => cmp a b ≠ .gt

/-- The equivalence-class predicate of `a0` under the comparator: the
elements the comparator reports `Equal` to `a0`. -/
def pEq (cmp : α → α → Ordering) (a0 x : α) : Bool :=
  decide (cmp x a0 = .eq)

/-- Comparison of pairs by first component — the comparator of the spec's
stability scenario. -/
def cmpFst (p q : Nat × String) : Ordering := compare p.1 q.1

/-! ## Lemmas: Ordered Hash Map refines the insertion-order reference -/

section MapLemmas

variable {K V : Type _} [DecidableEq K]

omit [DecidableEq K] in
theorem liveItemsL_append (l1 l2 : List (Entry K V)) :
    liveItemsL (l1 ++ l2) = liveItemsL l1 ++ liveItemsL l2 := by
  induction l1 with
  | nil => simp [liveItemsL]
  | cons e t ih =>
    simp only [List.cons_append, liveItemsL]
    split <;> simp [ih]

theorem hasLiveL_iff_mem_keys (l : List (Entry K V)) (k : K) :
    hasLiveL l k = true ↔ k ∈ (liveItemsL l).map Prod.fst := by
  induction l with
  | nil => simp [hasLiveL, liveItemsL]
  | cons e t ih =>
    rw [show hasLiveL (e :: t) k = ((e.live && decide (e.key = k)) || hasLiveL t k) from
      List.any_cons]
    by_cases hl : e.live
    · simp only [liveItemsL, hl, if_true, List.map_cons, List.mem_cons, Bool.or_eq_true,
        Bool.and_eq_true, decide_eq_true_eq, ih]
      constructor
      · rintro (⟨_, h⟩ | h)
        · exact Or.inl h.symm
        · exact Or.inr h
      · rintro (h | h)
        · exact Or.inl ⟨trivial, h.symm⟩
        · exact Or.inr h
    · simp only [liveItemsL, hl, if_false, Bool.or_eq_true, Bool.and_eq_true, ih]
      simp [hl]

theorem liveItemsL_updateLiveL (l : List (Entry K V)) (k : K) (v : V)
    (h : hasLiveL l k = true) :
    liveItemsL (updateLiveL l k v) = refInsert (liveItemsL l) k v := by
  induction l with
  | nil => simp [hasLiveL] at h
  | cons e t ih =>
    by_cases hm : (e.live && decide (e.key = k)) = true
    · have hm' := hm
      rw [Bool.and_eq_true, decide_eq_true_eq] at hm'
      obtain ⟨hl, hk'⟩ := hm'
      simp [updateLiveL, hm, liveItemsL, hl, refInsert, hk']
    · have hrest : hasLiveL t k = true := by
        simp only [hasLiveL, List.any_cons, Bool.or_eq_true] at h
        rcases h with h | h
        · exact absurd h hm
        · exact h
      by_cases hl : e.live
      · have hk : ¬ e.key = k := by
          intro hk
          exact hm (by simp [hl, hk])
        simp [updateLiveL, hm, liveItemsL, hl, refInsert, hk, ih hrest]
      · simp [updateLiveL, hm, liveItemsL, hl, ih hrest]

theorem refInsert_of_not_mem (r : List (K × V)) (k : K) (v : V)
    (h : k ∉ r.map Prod.fst) :
    refInsert r k v = r ++ [(k, v)] := by
  induction r with
  | nil => rfl
  | cons p t ih =>
    simp only [List.map_cons, List.mem_cons] at h
    push_neg at h
    simp [refInsert, Ne.symm h.1, ih h.2]

theorem liveItemsL_tombstoneL (l : List (Entry K V)) (k : K) :
    liveItemsL (tombstoneL l k) = refRemove (liveItemsL l) k := by
  induction l with
  | nil => rfl
  | cons e t ih =>
    by_cases hm : (e.live && decide (e.key = k)) = true
    · have hm' := hm
      rw [Bool.and_eq_true, decide_eq_true_eq] at hm'
      obtain ⟨hl, hk'⟩ := hm'
      simp [tombstoneL, hm, liveItemsL, hl, refRemove, hk']
    · by_cases hl : e.live
      · have hk : ¬ e.key = k := by
          intro hk
          exact hm (by simp [hl, hk])
        simp [tombstoneL, hm, liveItemsL, hl, refRemove, hk, ih]
      · simp [tombstoneL, hm, liveItemsL, hl, ih]

omit [DecidableEq K] in
theorem maybeResize_items (m : OMap K V) : m.maybeResize.items = m.items := by
  unfold OMap.maybeResize
  split <;> rfl

omit [DecidableEq K] in
theorem maybeResize_entries (m : OMap K V) : m.maybeResize.entries = m.entries := by
  unfold OMap.maybeResize
  split <;> rfl

theorem insert_items (hf : K → Nat) (m : OMap K V) (k : K) (v : V) :
    (m.insert hf k v).items = refInsert m.items k v := by
  unfold OMap.insert
  rw [maybeResize_items]
  by_cases h : hasLiveL m.entries k
  · simp only [h, if_true]
    exact liveItemsL_updateLiveL m.entries k v h
  · simp only [h, Bool.false_eq_true, if_false]
    show liveItemsL (m.entries ++ [⟨hf k, k, v, true⟩])
        = refInsert (liveItemsL m.entries) k v
    rw [liveItemsL_append]
    have hnm : k ∉ (liveItemsL m.entries).map Prod.fst := by
      rw [← hasLiveL_iff_mem_keys]
      simp [h]
    rw [refInsert_of_not_mem _ _ _ hnm]
    simp [liveItemsL]

theorem remove_items (m : OMap K V) (k : K) :
    (m.remove k).items = refRemove m.items k :=
  liveItemsL_tombstoneL m.entries k

theorem applyOp_items (hf : K → Nat) (m : OMap K V) (op : MapOp K V) :
    (applyOp hf m op).items = refApply m.items op := by
  cases op with
  | ins k v => exact insert_items hf m k v
  | del k => exact remove_items m k
  | clr => rfl

theorem applyOps_items (hf : K → Nat) (ops : List (MapOp K V)) :
    ∀ m : OMap K V, (applyOps hf m ops).items = ops.foldl refApply m.items := by
  induction ops with
  | nil => intro m; rfl
  | cons op ops ih =>
    intro m
    show (applyOps hf (applyOp hf m op) ops).items = _
    rw [ih, applyOp_items]
    rfl

theorem runOps_items (hf : K → Nat) (ops : List (MapOp K V)) :
    (runOps hf ops).items = refRun ops :=
  applyOps_items hf ops OMap.empty

theorem get_isSome_iff (m : OMap K V) (k : K) :
    (m.get k).isSome = true ↔ k ∈ m.keysList := by
  unfold OMap.get OMap.keysList OMap.items
  rw [← hasLiveL_iff_mem_keys]
  simp only [Option.isSome_map']
  rw [List.find?_isSome]
  simp [hasLiveL, List.any_eq_true]

/-! ## Lemmas: load factor -/

omit [DecidableEq K] in
theorem maybeResize_load (m : OMap K V) :
    3 * m.maybeResize.liveCount ≤ 2 * m.maybeResize.capIdx := by
  unfold OMap.maybeResize
  by_cases h : 2 * m.capIdx < 3 * m.liveCount
  · simp only [h, if_true]
    show 3 * (liveItemsL m.entries).length ≤ 2 * specNewSize (liveItemsL m.entries).length
    unfold specNewSize
    split <;> omega
  · simp only [h, if_false]
    omega

theorem insert_load (hf : K → Nat) (m : OMap K V) (k : K) (v : V) :
    3 * (m.insert hf k v).liveCount ≤ 2 * (m.insert hf k v).capIdx :=
  maybeResize_load _

theorem refRemove_length_le (r : List (K × V)) (k : K) :
    (refRemove r k).length ≤ r.length := by
  induction r with
  | nil => simp [refRemove]
  | cons p t ih =>
    simp only [refRemove]
    split
    · simp
    · simp only [List.length_cons]
      omega

theorem remove_load (m : OMap K V) (k : K)
    (h : 3 * m.liveCount ≤ 2 * m.capIdx) :
    3 * (m.remove k).liveCount ≤ 2 * (m.remove k).capIdx := by
  have h1 : (m.remove k).liveCount ≤ m.liveCount := by
    unfold OMap.liveCount
    rw [remove_items]
    exact refRemove_length_le _ _
  have h2 : (m.remove k).capIdx = m.capIdx := rfl
  omega

theorem applyOps_load (hf : K → Nat) (ops : List (MapOp K V)) :
    ∀ m : OMap K V, 3 * m.liveCount ≤ 2 * m.capIdx →
      3 * (applyOps hf m ops).liveCount ≤ 2 * (applyOps hf m ops).capIdx := by
  induction ops with
  | nil => intro m h; exact h
  | cons op ops ih =>
    intro m h
    show 3 * (applyOps hf (applyOp hf m op) ops).liveCount ≤ _
    refine ih _ ?_
    cases op with
    | ins k v => exact insert_load hf m k v
    | del k => exact remove_load m k h
    | clr =>
      show 3 * (OMap.empty : OMap K V).liveCount ≤ 2 * (OMap.empty : OMap K V).capIdx
      simp [OMap.empty, OMap.liveCount, OMap.items, liveItemsL]

theorem runOps_load (hf : K → Nat) (ops : List (MapOp K V)) :
    3 * (runOps hf ops).liveCount ≤ 2 * (runOps hf ops).capIdx := by
  refine applyOps_load hf ops OMap.empty ?_
  simp [OMap.empty, OMap.liveCount, OMap.items, liveItemsL]

end MapLemmas

/-! ## Lemmas: Hash Set algebra -/

section SetLemmas

variable {K : Type _} [DecidableEq K]

theorem boolEqOfIff {a b : Bool} (h : a = true ↔ b = true) : a = b := by
  cases a <;> cases b <;> simp_all

theorem partitionLength (l : List β) (p : β → Bool) :
    (l.filter p).length + (l.filter fun x => ! p x).length = l.length := by
  induction l with
  | nil => rfl
  | cons x t ih =>
    by_cases h : p x = true <;> simp [List.filter_cons, h] <;> omega

theorem refInsert_mem_keys (r : List (K × Unit)) (k x : K) (v : Unit) :
    x ∈ (refInsert r k v).map Prod.fst ↔ x = k ∨ x ∈ r.map Prod.fst := by
  induction r with
  | nil => simp [refInsert]
  | cons p t ih =>
    by_cases h : p.1 = k
    · simp [refInsert, h]
    · simp [refInsert, h, ih]
      tauto

theorem refInsert_length (r : List (K × Unit)) (k : K) (v : Unit) :
    (refInsert r k v).length
      = r.length + (if k ∈ r.map Prod.fst then 0 else 1) := by
  induction r with
  | nil => simp [refInsert]
  | cons p t ih =>
    by_cases h : p.1 = k
    · simp [refInsert, h]
    · have h' : ¬ k = p.1 := fun hk => h hk.symm
      by_cases hc : k ∈ t.map Prod.fst <;>
        simp [refInsert, h, h', hc, ih]

theorem HSet.member_iff (s : HSet K) (x : K) :
    s.member x = true ↔ x ∈ s.keys :=
  hasLiveL_iff_mem_keys _ _

theorem HSet.keys_add (hf : K → Nat) (s : HSet K) (k : K) :
    (s.add hf k).keys = (refInsert (OMap.items s) k ()).map Prod.fst := by
  show ((OMap.insert hf s k ()).items).map Prod.fst = _
  rw [insert_items]

theorem HSet.member_add (hf : K → Nat) (s : HSet K) (k x : K) :
    (s.add hf k).member x = true ↔ x = k ∨ s.member x = true := by
  rw [HSet.member_iff, HSet.keys_add, refInsert_mem_keys, HSet.member_iff]
  rfl

theorem HSet.size_add (hf : K → Nat) (s : HSet K) (k : K) :
    (s.add hf k).size = s.size + (if s.member k = true then 0 else 1) := by
  show ((OMap.insert hf s k ()).items).length = _
  rw [insert_items, refInsert_length]
  by_cases h : s.member k = true
  · have hm : k ∈ (OMap.items s).map Prod.fst := (HSet.member_iff s k).mp h
    simp [h, hm]
    rfl
  · have hm : k ∉ (OMap.items s).map Prod.fst := fun hm =>
      h ((HSet.member_iff s k).mpr hm)
    simp [h, hm]
    rfl

theorem HSet.member_foldAdd (hf : K → Nat) (ks : List K) :
    ∀ (s : HSet K) (x : K),
      (HSet.foldAdd hf s ks).member x = true ↔ s.member x = true ∨ x ∈ ks := by
  induction ks with
  | nil => intro s x; simp [HSet.foldAdd]
  | cons k ks ih =>
    intro s x
    show (HSet.foldAdd hf (s.add hf k) ks).member x = true ↔ _
    rw [ih, HSet.member_add]
    simp
    tauto

theorem HSet.size_foldAdd (hf : K → Nat) (ks : List K) :
    ∀ s : HSet K, ks.Nodup →
      (HSet.foldAdd hf s ks).size
        = s.size + (ks.filter fun k => ! s.member k).length := by
  induction ks with
  | nil => intro s _; simp [HSet.foldAdd]
  | cons k ks ih =>
    intro s hnd
    rw [List.nodup_cons] at hnd
    obtain ⟨hk, hnd⟩ := hnd
    show (HSet.foldAdd hf (s.add hf k) ks).size = _
    rw [ih _ hnd]
    have hcong : ks.filter (fun a => ! (s.add hf k).member a)
        = ks.filter fun a => ! s.member a := by
      refine List.filter_congr ?_
      intro a ha
      refine congrArg (fun b => ! b) (boolEqOfIff ?_)
      rw [HSet.member_add]
      constructor
      · rintro (h | h)
        · exact absurd (h ▸ ha) hk
        · exact h
      · exact Or.inr
    rw [hcong, HSet.size_add]
    by_cases h : s.member k = true <;> simp [List.filter_cons, h] <;> omega

theorem HSet.member_empty (x : K) : (HSet.empty : HSet K).member x = false := rfl

omit [DecidableEq K] in
theorem HSet.keys_length (s : HSet K) : s.keys.length = s.size := by
  show (s.items.map Prod.fst).length = s.items.length
  simp

theorem HSet.member_union (hf : K → Nat) (a b : HSet K) (x : K) :
    (HSet.union hf a b).member x = true ↔ a.member x = true ∨ b.member x = true := by
  unfold HSet.union
  by_cases h : b.size ≤ a.size
  · simp only [h, if_true]
    rw [HSet.member_foldAdd hf b.keys a x, ← HSet.member_iff b x]
  · simp only [h, if_false]
    rw [HSet.member_foldAdd hf a.keys b x, ← HSet.member_iff a x]
    tauto

theorem HSet.member_inter (hf : K → Nat) (a b : HSet K) (x : K) :
    (HSet.inter hf a b).member x = true ↔ a.member x = true ∧ b.member x = true := by
  unfold HSet.inter
  by_cases h : b.size ≤ a.size <;>
    simp only [h, if_true, if_false] <;>
    rw [HSet.member_foldAdd] <;>
    simp only [HSet.member_empty, Bool.false_eq_true, false_or, List.mem_filter] <;>
    rw [← HSet.member_iff] <;>
    tauto

theorem HSet.member_diff (hf : K → Nat) (a b : HSet K) (x : K) :
    (HSet.diff hf a b).member x = true
      ↔ a.member x = true ∧ ¬ b.member x = true := by
  unfold HSet.diff
  rw [HSet.member_foldAdd]
  simp only [HSet.member_empty, Bool.false_eq_true, false_or, List.mem_filter]
  rw [← HSet.member_iff]
  constructor
  · rintro ⟨h1, h2⟩
    exact ⟨h1, by simpa using h2⟩
  · rintro ⟨h1, h2⟩
    exact ⟨h1, by simpa using h2⟩

theorem HSet.union_inter_size (hf : K → Nat) (a b : HSet K)
    (ha : a.keys.Nodup) (hb : b.keys.Nodup) :
    (HSet.union hf a b).size + (HSet.inter hf a b).size = a.size + b.size := by
  have hempty : ∀ l : List K, l.Nodup →
      (HSet.foldAdd hf (HSet.empty : HSet K) l).size = l.length := by
    intro l hl
    rw [HSet.size_foldAdd hf l HSet.empty hl]
    have : l.filter (fun k => ! (HSet.empty : HSet K).member k) = l := by
      refine List.filter_eq_self.mpr ?_
      intro k _
      simp [HSet.member_empty]
    rw [this]
    have h0 : (HSet.empty : HSet K).size = 0 := rfl
    omega
  unfold HSet.union HSet.inter
  by_cases h : b.size ≤ a.size <;> simp only [h, if_true, if_false]
  · rw [HSet.size_foldAdd hf b.keys a hb,
      hempty _ (hb.filter _)]
    have := partitionLength b.keys fun k => a.member k
    have hkb := HSet.keys_length b
    omega
  · rw [HSet.size_foldAdd hf a.keys b ha,
      hempty _ (ha.filter _)]
    have := partitionLength a.keys fun k => b.member k
    have hka := HSet.keys_length a
    omega

end SetLemmas

/-! ## Lemmas: Growable Sequence -/

section SeqLemmas

variable {α : Type _}

theorem growCap_bounds (n : Nat) :
    n + n / 8 + 4 ≤ growCap n ∧ growCap n ≤ n + n / 8 + 8 := by
  have h1 : n / 8 ≤ (n + 1) / 8 := Nat.div_le_div_right (Nat.le_succ n)
  have h2 : (n + 1) / 8 ≤ n / 8 + 1 := by
    have h8 : (n + 8) / 8 = n / 8 + 1 := Nat.add_div_right n (by norm_num)
    calc (n + 1) / 8 ≤ (n + 8) / 8 := Nat.div_le_div_right (by omega)
      _ = n / 8 + 1 := h8
  unfold growCap
  split <;> omega

theorem append_len (s : GSeq α) (x : α) : (s.append x).len = s.len + 1 := by
  unfold GSeq.append
  split <;> simp [GSeq.len]

theorem append_get_last (s : GSeq α) (x : α) :
    (s.append x).get s.len = .ok x := by
  have hdata : (s.append x).data = s.data ++ [x] := by
    unfold GSeq.append
    split <;> rfl
  unfold GSeq.get
  rw [hdata]
  have hlt : s.len < (s.data ++ [x]).length := by simp [GSeq.len]
  rw [dif_pos hlt]
  congr 1
  rw [List.get_eq_getElem]
  exact List.getElem_concat_length _ _ _ rfl _

theorem append_get_prefix (s : GSeq α) (x : α) (i : Nat) (h : i < s.len) :
    (s.append x).get i = s.get i := by
  have hdata : (s.append x).data = s.data ++ [x] := by
    unfold GSeq.append
    split <;> rfl
  have hi : i < s.data.length := h
  unfold GSeq.get
  rw [hdata]
  have hlt : i < (s.data ++ [x]).length := by
    simp only [List.length_append, List.length_cons, List.length_nil]
    omega
  rw [dif_pos hlt, dif_pos hi]
  congr 1
  rw [List.get_eq_getElem, List.get_eq_getElem]
  exact List.getElem_append_left hi

theorem append_cap_grow (s : GSeq α) (x : α) (h : s.len = s.cap) :
    ∃ c, 4 ≤ c ∧ c ≤ 8 ∧ (s.append x).cap = s.cap + s.cap / 8 + c := by
  have hcap : (s.append x).cap = growCap s.cap := by
    unfold GSeq.append
    rw [if_pos h, h]
  obtain ⟨hlo, hhi⟩ := growCap_bounds s.cap
  exact ⟨growCap s.cap - s.cap - s.cap / 8, by omega, by omega, by omega⟩

end SeqLemmas

/-! ## Lemmas: fallible insert -/

section TryLemmas

variable {K V : Type _} [DecidableEq K]

theorem insertTry_ok (alloc : Nat → Bool) (hf : K → Nat) (m : OMap K V)
    (k : K) (v : V) (h : (m.insertTry alloc hf k v).2 = none) :
    (m.insertTry alloc hf k v).1 = m.insert hf k v := by
  unfold OMap.insertTry at *
  unfold OMap.insert OMap.maybeResize
  by_cases h1 : hasLiveL m.entries k <;>
    simp only [h1, if_true, if_false, Bool.false_eq_true] at * <;>
    (try dsimp only at *) <;>
    split_ifs at h ⊢ with h2 h3 <;>
    simp_all

theorem insertTry_err (alloc : Nat → Bool) (hf : K → Nat) (m : OMap K V)
    (k : K) (v : V) (e : Err) (h : (m.insertTry alloc hf k v).2 = some e) :
    e = Err.outOfMemory ∧ (m.insertTry alloc hf k v).1 = m ∧
      2 * m.capIdx < 3 * (refInsert m.items k v).length ∧
      alloc (specNewSize (refInsert m.items k v).length) = false := by
  have hitems :
      (OMap.items (if hasLiveL m.entries k then
        (⟨updateLiveL m.entries k v, m.capIdx⟩ : OMap K V)
       else ⟨m.entries ++ [⟨hf k, k, v, true⟩], m.capIdx⟩))
      = refInsert m.items k v := by
    have := insert_items hf m k v
    unfold OMap.insert at this
    rw [maybeResize_items] at this
    exact this
  unfold OMap.insertTry at *
  by_cases h1 : hasLiveL m.entries k <;>
    simp only [h1, if_true, if_false, Bool.false_eq_true] at * <;>
    rw [show (refInsert m.items k v).length = _ from congrArg List.length hitems.symm] <;>
    dsimp only [OMap.liveCount, OMap.items] at * <;>
    split_ifs at h ⊢ with h2 h3 <;>
    simp_all
end TryLemmas

/-! ## Claim theorems (map, set, sequence, formulas) -/

/-- C1: for every Ordered Hash Map and every finite sequence of insert and
remove operations, `items()`/`keys()` yield exactly the currently-live keys
in the order they were first inserted — formalised as equality with the
insertion-order reference model `refRun` (update keeps position, removal
then re-insertion moves the key to the end) — and `get` succeeds exactly on
the iterated keys; in particular the spec's concrete scenario yields
`[("a",1), ("c",3), ("b",4)]`. -/
theorem map_insertion_order_c1 :
    (∀ (K V : Type) [DecidableEq K] (hf : K → Nat) (ops : List (MapOp K V)),
      (runOps hf ops).items = refRun ops
      ∧ (runOps hf ops).keysList = (refRun ops).map Prod.fst
      ∧ ∀ k, ((runOps hf ops).get k).isSome = true ↔ k ∈ (runOps hf ops).keysList)
    ∧ (runOps (fun _ => 0)
        [MapOp.ins "a" 1, MapOp.ins "b" 2, MapOp.ins "c" 3,
         MapOp.del "b", MapOp.ins "b" 4]).items
      = [("a", 1), ("c", 3), ("b", 4)] := by
  constructor
  · intro K V _ hf ops
    refine ⟨runOps_items hf ops, ?_, fun k => get_isSome_iff _ k⟩
    unfold OMap.keysList
    rw [runOps_items]
  · decide

/-- C1 witness: the reference equality applied at a concrete operation
sequence. -/
theorem map_insertion_order_c1_witness :
    (runOps (fun _ => 0) [MapOp.ins "x" 7, MapOp.ins "y" 8]).items
      = [("x", 7), ("y", 8)] :=
  ((map_insertion_order_c1.1 String Nat (fun _ => 0)
      [MapOp.ins "x" 7, MapOp.ins "y" 8]).1).trans (by decide)

/-- C2: after any finite sequence of mutating operations (insert, remove,
clear) on an Ordered Hash Map or a Hash Set, the load-factor invariant
holds: `live_count / cap_idx ≤ 2/3`, written multiplicatively as
`3 · live_count ≤ 2 · cap_idx`. -/
theorem load_factor_invariant_c2 :
    (∀ (K V : Type) [DecidableEq K] (hf : K → Nat) (ops : List (MapOp K V)),
      3 * (runOps hf ops).liveCount ≤ 2 * (runOps hf ops).capIdx)
    ∧ (∀ (K : Type) [DecidableEq K] (hf : K → Nat) (ops : List (SetOp K)),
      3 * (runSetOps hf ops).size ≤ 2 * OMap.capIdx (runSetOps hf ops)) := by
  constructor
  · intro K V _ hf ops
    exact runOps_load hf ops
  · intro K _ hf ops
    exact runOps_load hf _

/-- C2 witness: the invariant applied at a concrete operation sequence. -/
theorem load_factor_invariant_c2_witness :
    3 * (runOps (fun _ : Nat => 0) [MapOp.ins 1 1, MapOp.del 1]).liveCount
      ≤ 2 * (runOps (fun _ : Nat => 0) [MapOp.ins 1 1, MapOp.del 1]).capIdx :=
  load_factor_invariant_c2.1 Nat Nat (fun _ => 0) [MapOp.ins 1 1, MapOp.del 1]

/-- C3: the docstring's resize sizing formula ("New size = 4 * used_slots
(if used > 50k, else 2 * used_slots)") has its branches swapped relative to
the claim: at `live_count = 3` (below the threshold) it allocates `2 × 3 = 6`
slots where the claim requires `4 × 3 = 12`, and at `live_count = 60000`
(above the threshold) it allocates `4×` where the claim requires `2×`. -/
theorem resize_sizing_doc_c3 :
    docNewSize 3 = 6 ∧ specNewSize 3 = 12
    ∧ docNewSize 60000 = 240000 ∧ specNewSize 60000 = 120000
    ∧ ¬ docNewSize 3 = 4 * 3 := by decide

/-- C4: appending to a full Growable Sequence reallocates to capacity
`cap + cap/8 + c` with `4 ≤ c ≤ 8` (the ~1.125× growth factor with a fixed
minimum increment), writes the element at index `len`, increments `len`,
and preserves the existing prefix. -/
theorem append_growth_c4 :
    ∀ (α : Type) (s : GSeq α) (x : α), s.len = s.cap →
      (s.append x).len = s.len + 1
      ∧ (s.append x).get s.len = .ok x
      ∧ (∀ i, i < s.len → (s.append x).get i = s.get i)
      ∧ ∃ c, 4 ≤ c ∧ c ≤ 8 ∧ (s.append x).cap = s.cap + s.cap / 8 + c := by
  intro α s x h
  exact ⟨append_len s x, append_get_last s x,
    fun i hi => append_get_prefix s x i hi, append_cap_grow s x h⟩

/-- C4 witness: appending to the full empty sequence (len = cap = 0). -/
theorem append_growth_c4_witness :
    ((⟨[], 0⟩ : GSeq Nat).append 42).len = 1
    ∧ ((⟨[], 0⟩ : GSeq Nat).append 42).get 0 = .ok 42
    ∧ ((⟨[], 0⟩ : GSeq Nat).append 42).cap = 4 := by
  have h := append_growth_c4 Nat ⟨[], 0⟩ 42 rfl
  exact ⟨h.1, h.2.1, by decide⟩

/-- C5: the docstring's minimum-run-length formula
`minrun = n//64 + (1 if n%64 else 0)` does not lie in `[32, 64]` for
`n = 128 ≥ 64` (it yields 2), whereas the halving computation the claim
describes yields 32 there. -/
theorem minrun_doc_c5 :
    minrunDoc 128 = 2 ∧ ¬ (32 ≤ minrunDoc 128 ∧ minrunDoc 128 ≤ 64)
    ∧ minrunSpec 128 = 32 ∧ 32 ≤ minrunSpec 128 ∧ minrunSpec 128 ≤ 64 := by
  decide

/-- C7: Hash Set algebra — union and intersection are commutative as
membership, the difference is disjoint from the subtrahend, and the
inclusion–exclusion cardinality law holds for sets with duplicate-free
iteration order. -/
theorem set_algebra_c7 :
    ∀ (K : Type) [DecidableEq K] (hf : K → Nat) (a b : HSet K),
      a.keys.Nodup → b.keys.Nodup →
      ((∀ x, (HSet.union hf a b).member x = true
          ↔ (HSet.union hf b a).member x = true)
      ∧ (∀ x, (HSet.inter hf a b).member x = true
          ↔ (HSet.inter hf b a).member x = true)
      ∧ (∀ x, ¬ (HSet.inter hf (HSet.diff hf a b) b).member x = true)
      ∧ (HSet.union hf a b).size + (HSet.inter hf a b).size
          = a.size + b.size) := by
  intro K _ hf a b ha hb
  refine ⟨?_, ?_, ?_, HSet.union_inter_size hf a b ha hb⟩
  · intro x
    rw [HSet.member_union, HSet.member_union]
    tauto
  · intro x
    rw [HSet.member_inter, HSet.member_inter]
    tauto
  · intro x h
    rw [HSet.member_inter] at h
    obtain ⟨h1, h2⟩ := h
    rw [HSet.member_diff] at h1
    exact h1.2 h2

/-- C7 witness: the cardinality law at the concrete sets {1,2} and {2,3}. -/
theorem set_algebra_c7_witness :
    (HSet.union (fun _ => 0) (HSet.foldAdd (fun _ => 0) HSet.empty [1, 2])
        (HSet.foldAdd (fun _ => 0) HSet.empty [2, 3])).size
      + (HSet.inter (fun _ => 0) (HSet.foldAdd (fun _ => 0) HSet.empty [1, 2])
        (HSet.foldAdd (fun _ => 0) HSet.empty [2, 3])).size
      = (HSet.foldAdd (fun _ => 0) (HSet.empty : HSet Nat) [1, 2]).size
      + (HSet.foldAdd (fun _ => 0) (HSet.empty : HSet Nat) [2, 3]).size :=
  (set_algebra_c7 Nat (fun _ => 0) _ _ (by decide) (by decide)).2.2.2

/-- C8: `insert` with a fallible resize allocation fails only with
`OutOfMemory`, and only when the post-insertion load factor demands a resize
whose allocation the host refuses; on failure nothing is committed — the
returned map is the untouched input map (its pre-resize, still-correct
state).  When no error is reported the result is exactly the infallible
`insert`.  `get` and `remove` allocate nothing and are total functions of
the model, so they never fail. -/
theorem oom_only_on_resize_c8 :
    ∀ (K V : Type) [DecidableEq K] (alloc : Nat → Bool) (hf : K → Nat)
      (m : OMap K V) (k : K) (v : V),
      ((m.insertTry alloc hf k v).2 = none →
        (m.insertTry alloc hf k v).1 = m.insert hf k v)
      ∧ (∀ e, (m.insertTry alloc hf k v).2 = some e →
          e = Err.outOfMemory
          ∧ (m.insertTry alloc hf k v).1 = m
          ∧ 2 * m.capIdx < 3 * (refInsert m.items k v).length
          ∧ alloc (specNewSize (refInsert m.items k v).length) = false) := by
  intro K V _ alloc hf m k v
  exact ⟨insertTry_ok alloc hf m k v, fun e he => insertTry_err alloc hf m k v e he⟩

/-- C8 witness: with an always-failing allocator, the sixth insert into a
fresh map (which triggers the first resize) reports `OutOfMemory` and
leaves the map unchanged. -/
theorem oom_only_on_resize_c8_witness :
    (OMap.insertTry (fun _ => false) (fun _ => 0)
        (runOps (fun _ => 0) [MapOp.ins 1 1, MapOp.ins 2 2, MapOp.ins 3 3,
          MapOp.ins 4 4, MapOp.ins 5 5]) 6 6).1
      = runOps (fun _ => 0) [MapOp.ins 1 1, MapOp.ins 2 2, MapOp.ins 3 3,
          MapOp.ins 4 4, MapOp.ins 5 5] :=
  ((oom_only_on_resize_c8 Nat Nat (fun _ => false) (fun _ => 0) _ 6 6).2
    Err.outOfMemory (by decide)).2.1

/-- C9: sequence accesses fail with `IndexOutOfRange` exactly past the
bounds — `get`/`set`/`remove` when `i ≥ len`, `insert` when `i > len` (so
insertion at `i = len` succeeds) — and succeed in all other cases. -/
theorem index_errors_c9 :
    ∀ (α : Type) (s : GSeq α) (i : Nat) (x : α),
      (i < s.len → ∃ v, s.get i = .ok v)
      ∧ (s.len ≤ i → s.get i = .error .indexOutOfRange)
      ∧ (i < s.len → ∃ t, s.set i x = .ok t)
      ∧ (s.len ≤ i → s.set i x = .error .indexOutOfRange)
      ∧ (i ≤ s.len → ∃ t, s.insertAt i x = .ok t)
      ∧ (s.len < i → s.insertAt i x = .error .indexOutOfRange)
      ∧ (i < s.len → ∃ t, s.removeAt i = .ok t)
      ∧ (s.len ≤ i → s.removeAt i = .error .indexOutOfRange) := by
  intro α s i x
  refine ⟨?_, ?_, ?_, ?_, ?_, ?_, ?_, ?_⟩
  · intro h
    have h' : i < s.data.length := h
    unfold GSeq.get
    rw [dif_pos h']
    exact ⟨_, rfl⟩
  · intro h
    have h' : ¬ i < s.data.length := Nat.not_lt.mpr h
    unfold GSeq.get
    rw [dif_neg h']
  · intro h
    unfold GSeq.set
    rw [if_pos h]
    exact ⟨_, rfl⟩
  · intro h
    unfold GSeq.set
    rw [if_neg (Nat.not_lt.mpr h)]
  · intro h
    unfold GSeq.insertAt
    rw [if_pos h]
    exact ⟨_, rfl⟩
  · intro h
    unfold GSeq.insertAt
    rw [if_neg (Nat.not_le.mpr h)]
  · intro h
    unfold GSeq.removeAt
    rw [if_pos h]
    exact ⟨_, rfl⟩
  · intro h
    unfold GSeq.removeAt
    rw [if_neg (Nat.not_lt.mpr h)]

/-- C9 witness: out-of-range and in-range accesses on a concrete sequence. -/
theorem index_errors_c9_witness :
    GSeq.get (⟨[10, 20], 4⟩ : GSeq Nat) 5 = .error .indexOutOfRange
    ∧ GSeq.insertAt (⟨[10, 20], 4⟩ : GSeq Nat) 3 0 = .error .indexOutOfRange := by
  have h5 := index_errors_c9 Nat ⟨[10, 20], 4⟩ 5 0
  have h3 := index_errors_c9 Nat ⟨[10, 20], 4⟩ 3 0
  exact ⟨h5.2.1 (by decide), (h3.2.2.2.2.2.1) (by decide)⟩

/-! ## Lemmas: the sort is a permutation (any comparator) -/

section SortPerm

variable {α : Type _} (cmp : α → α → Ordering)

theorem mergeRuns_perm (l r : List α) : (mergeRuns cmp l r).Perm (l ++ r) := by
  induction l, r using mergeRuns.induct cmp with
  | case1 r => simp [mergeRuns]
  | case2 l h =>
    cases l with
    | nil => exact absurd rfl h
    | cons x l => simp [mergeRuns]
  | case3 x l y r h ih =>
    simp only [mergeRuns, h, if_true]
    exact (ih.cons y).trans List.perm_middle.symm
  | case4 x l y r h ih =>
    simp only [mergeRuns, h, if_false]
    exact ih.cons x

theorem insertAfterEq_perm (x : α) :
    ∀ l : List α, (insertAfterEq cmp x l).Perm (x :: l) := by
  intro l
  induction l with
  | nil => simp [insertAfterEq]
  | cons y t ih =>
    simp only [insertAfterEq]
    split
    · exact List.Perm.refl _
    · exact (ih.cons y).trans (List.Perm.swap x y t)

theorem extendRun_flat_perm :
    ∀ (k : Nat) (run rest : List α),
      ((extendRun cmp run k rest).1 ++ (extendRun cmp run k rest).2).Perm
        (run ++ rest) := by
  intro k
  induction k with
  | zero => intro run rest; simp [extendRun]
  | succ k ih =>
    intro run rest
    cases rest with
    | nil => simp [extendRun]
    | cons x rest =>
      show ((extendRun cmp (insertAfterEq cmp x run) k rest).1 ++ _).Perm _
      refine (ih (insertAfterEq cmp x run) rest).trans ?_
      refine (List.Perm.append_right rest (insertAfterEq_perm cmp x run)).trans ?_
      exact List.perm_middle.symm

theorem ascRun_concat :
    ∀ (l : List α) (x : α), (ascRun cmp x l).1 ++ (ascRun cmp x l).2 = x :: l := by
  intro l
  induction l with
  | nil => intro x; simp [ascRun]
  | cons y t ih =>
    intro x
    simp only [ascRun]
    split
    · simp
    · simp [ih y]

theorem descRun_concat :
    ∀ (l : List α) (x : α), (descRun cmp x l).1 ++ (descRun cmp x l).2 = x :: l := by
  intro l
  induction l with
  | nil => intro x; simp [descRun]
  | cons y t ih =>
    intro x
    simp only [descRun]
    split
    · simp [ih y]
    · simp

theorem nextRun_flat_perm (minrun : Nat) :
    ∀ l : List α, ((nextRun cmp minrun l).1 ++ (nextRun cmp minrun l).2).Perm l := by
  intro l
  match l with
  | [] => simp [nextRun]
  | [x] => simp [nextRun]
  | x :: y :: t =>
    by_cases h : cmp x y = .gt <;> simp only [nextRun, h, if_true, if_false]
    · refine (extendRun_flat_perm cmp _ _ _).trans ?_
      refine (List.Perm.append_right _ (List.reverse_perm _)).trans ?_
      rw [descRun_concat]
    · refine (extendRun_flat_perm cmp _ _ _).trans ?_
      rw [ascRun_concat]

theorem flattenRuns_nil : flattenRuns ([] : List (List α)) = [] := rfl

theorem flattenRuns_cons (r : List α) (s : List (List α)) :
    flattenRuns (r :: s) = flattenRuns s ++ r := by
  simp [flattenRuns]

theorem mergeCollapse_other_eq (s : List (List α))
    (h1 : ∀ (c b a : List α) (rest : List (List α)), s = c :: b :: a :: rest → False)
    (h2 : ∀ c b : List α, s = [c, b] → False) : mergeCollapse cmp s = s := by
  unfold mergeCollapse
  match s, h1, h2 with
  | [], _, _ => rfl
  | [r], _, _ => rfl
  | [c, b], _, h2 => exact absurd rfl (h2 c b)
  | c :: b :: a :: rest, h1, _ => exact absurd rfl (h1 c b a rest)

theorem mergeCollapse_flat_perm :
    ∀ s : List (List α), (flattenRuns (mergeCollapse cmp s)).Perm (flattenRuns s) := by
  intro s
  induction s using mergeCollapse.induct cmp with
  | case1 c b a rest h1 h2 ih =>
    simp only [mergeCollapse, h1, h2, if_true]
    refine ih.trans ?_
    simp only [flattenRuns_cons]
    refine List.Perm.append_right c ?_
    refine (List.Perm.append_left _ (mergeRuns_perm cmp a b)).trans ?_
    simp [List.append_assoc]
  | case2 c b a rest h1 h2 ih =>
    simp only [mergeCollapse, h1, h2, if_true, if_false]
    refine ih.trans ?_
    simp only [flattenRuns_cons]
    refine (List.Perm.append_left _ (mergeRuns_perm cmp b c)).trans ?_
    simp [List.append_assoc]
  | case3 c b a rest h1 h2 ih =>
    simp only [mergeCollapse, h1, h2, if_true, if_false]
    refine ih.trans ?_
    simp only [flattenRuns_cons]
    refine (List.Perm.append_left _ (mergeRuns_perm cmp b c)).trans ?_
    simp [List.append_assoc]
  | case4 c b a rest h1 h2 =>
    simp only [mergeCollapse, h1, h2, if_false]
    exact List.Perm.refl _
  | case5 c b h =>
    simp only [mergeCollapse, h, if_true]
    simp only [flattenRuns_cons, flattenRuns_nil, List.nil_append]
    exact mergeRuns_perm cmp b c
  | case6 c b h =>
    simp only [mergeCollapse, h, if_false]
    exact List.Perm.refl _
  | case7 s h1 h2 =>
    rw [mergeCollapse_other_eq cmp s h1 h2]

theorem sortLoop_flat_perm (minrun : Nat) :
    ∀ (stack : List (List α)) (input : List α),
      (flattenRuns (sortLoop cmp minrun stack input)).Perm
        (flattenRuns stack ++ input) := by
  intro stack input
  induction stack, input using sortLoop.induct cmp minrun with
  | case1 stack => simp [sortLoop]
  | case2 stack x rest ih =>
    rw [sortLoop]
    refine ih.trans ?_
    refine (List.Perm.append_right _ (mergeCollapse_flat_perm cmp _)).trans ?_
    simp only [flattenRuns_cons, List.append_assoc]
    refine List.Perm.append_left _ ?_
    exact nextRun_flat_perm cmp minrun (x :: rest)

theorem forceCollapse_perm :
    ∀ s : List (List α), (forceCollapse cmp s).Perm (flattenRuns s) := by
  intro s
  induction s using forceCollapse.induct cmp with
  | case1 => simp [forceCollapse, flattenRuns_nil]
  | case2 r =>
    simp only [forceCollapse, flattenRuns_cons, flattenRuns_nil, List.nil_append]
    exact List.Perm.refl r
  | case3 c b rest ih =>
    rw [forceCollapse]
    refine ih.trans ?_
    simp only [flattenRuns_cons]
    refine (List.Perm.append_left _ (mergeRuns_perm cmp b c)).trans ?_
    simp [List.append_assoc]

theorem timsort_perm (l : List α) : (timsort cmp l).Perm l := by
  unfold timsort
  refine (forceCollapse_perm cmp _).trans ?_
  refine (sortLoop_flat_perm cmp _ [] l).trans ?_
  simp only [flattenRuns_nil, List.nil_append]
  exact List.Perm.refl l

theorem mem_mergeRuns {z : α} {L R : List α} (h : z ∈ mergeRuns cmp L R) :
    z ∈ L ∨ z ∈ R := by
  have := (mergeRuns_perm cmp L R).mem_iff.mp h
  simpa using this

theorem mem_insertAfterEq {z x : α} {l : List α}
    (h : z ∈ insertAfterEq cmp x l) : z = x ∨ z ∈ l := by
  have := (insertAfterEq_perm cmp x l).mem_iff.mp h
  simpa using this

theorem ascRun_fst_shape (l : List α) (x : α) :
    ∃ r, (ascRun cmp x l).1 = x :: r := by
  cases l with
  | nil => exact ⟨[], rfl⟩
  | cons y t =>
    simp only [ascRun]
    split
    · exact ⟨[], rfl⟩
    · exact ⟨_, rfl⟩

theorem descRun_fst_shape (l : List α) (x : α) :
    ∃ r, (descRun cmp x l).1 = x :: r := by
  cases l with
  | nil => exact ⟨[], rfl⟩
  | cons y t =>
    simp only [descRun]
    split
    · exact ⟨_, rfl⟩
    · exact ⟨[], rfl⟩

end SortPerm

/-! ## Lemmas: the sort is stable (consistent total-order comparator)

A comparator is consistent when `cmp a b = .lt ↔ cmp b a = .gt` (`hs`) and
the non-strict relation `cmp a b ≠ .gt` is transitive (`ht`).  Stability is
formalised as: for every pivot `a0`, the subsequence of elements the
comparator reports `Equal` to `a0` is preserved exactly — equivalently, no
two elements compared `Equal` are ever reordered. -/

section SortStable

variable {α : Type _} {cmp : α → α → Ordering}
variable (hs : ∀ a b : α, cmp a b = .lt ↔ cmp b a = .gt)
variable (ht : ∀ a b c : α, cmp a b ≠ .gt → cmp b c ≠ .gt → cmp a c ≠ .gt)

include hs ht

theorem cmp_eq_symm (a b : α) (h : cmp a b = .eq) : cmp b a = .eq := by
  cases hba : cmp b a with
  | lt =>
    have h2 := (hs b a).mp hba
    simp [h] at h2
  | eq => rfl
  | gt =>
    have h2 := (hs a b).mpr hba
    simp [h] at h2

theorem cmp_gt_asymm (a b : α) (h : cmp a b = .gt) : cmp b a ≠ .gt := by
  intro h2
  have h3 := (hs b a).mpr h
  simp [h2] at h3

theorem cmp_gt_trans (a b c : α) (hab : cmp a b = .gt) (hbc : cmp b c = .gt) :
    cmp a c = .gt := by
  by_contra hac
  have h1 : cmp c b ≠ .gt := by
    have := (hs c b).mpr hbc
    simp [this]
  exact ht a c b hac h1 hab

theorem eq_class_not_gt (a0 u v : α) (hu : cmp u a0 = .eq) (hv : cmp v a0 = .eq) :
    cmp u v ≠ .gt := by
  have h1 : cmp u a0 ≠ .gt := by simp [hu]
  have hsym := cmp_eq_symm hs ht v a0 hv
  have h2 : cmp a0 v ≠ .gt := by simp [hsym]
  exact ht u a0 v h1 h2

theorem noEqClass_of_gt_head (a0 x y : α) (L : List α)
    (hL : RunSorted cmp (x :: L)) (hxy : cmp x y = .gt) (hy : cmp y a0 = .eq) :
    (x :: L).filter (pEq cmp a0) = [] := by
  refine List.filter_eq_nil_iff.mpr ?_
  intro z hz hpz
  have hz0 : cmp z a0 = .eq := of_decide_eq_true hpz
  have ha0y : cmp a0 y ≠ .gt := by simp [cmp_eq_symm hs ht y a0 hy]
  rcases List.mem_cons.mp hz with rfl | hzL
  · have h1 : cmp z a0 ≠ .gt := by simp [hz0]
    exact ht z a0 y h1 ha0y hxy
  · have hxz : cmp x z ≠ .gt := (List.pairwise_cons.mp hL).1 z hzL
    have h1 : cmp z a0 ≠ .gt := by simp [hz0]
    have h2 := ht z a0 y h1 ha0y
    exact ht x z y hxz h2 hxy

theorem filter_mergeRuns (a0 : α) :
    ∀ L R : List α, RunSorted cmp L → RunSorted cmp R →
      (mergeRuns cmp L R).filter (pEq cmp a0)
        = L.filter (pEq cmp a0) ++ R.filter (pEq cmp a0) := by
  intro L R
  induction L, R using mergeRuns.induct cmp with
  | case1 r => intro _ _; simp [mergeRuns]
  | case2 l h =>
    cases l with
    | nil => exact absurd rfl h
    | cons x l => intro _ _; simp [mergeRuns]
  | case3 x l y r hxy ih =>
    intro hL hR
    have hR' : RunSorted cmp r := (List.pairwise_cons.mp hR).2
    simp only [mergeRuns, hxy, if_true, List.filter_cons, ih hL hR']
    by_cases hy : pEq cmp a0 y = true
    · have hy' : cmp y a0 = .eq := of_decide_eq_true hy
      have hnil : (x :: l).filter (pEq cmp a0) = [] :=
        noEqClass_of_gt_head hs ht a0 x y l hL hxy hy'
      rw [List.filter_cons] at hnil
      simp [hy, hnil]
    · simp [hy]
  | case4 x l y r hxy ih =>
    intro hL hR
    have hL' : RunSorted cmp l := (List.pairwise_cons.mp hL).2
    simp only [mergeRuns, hxy, if_false, List.filter_cons, ih hL' hR]
    by_cases hx : pEq cmp a0 x = true <;> simp [hx]

theorem RunSorted_mergeRuns :
    ∀ L R : List α, RunSorted cmp L → RunSorted cmp R →
      RunSorted cmp (mergeRuns cmp L R) := by
  intro L R
  induction L, R using mergeRuns.induct cmp with
  | case1 r => intro _ hR; simpa [mergeRuns] using hR
  | case2 l h =>
    cases l with
    | nil => exact absurd rfl h
    | cons x l => intro hL _; simpa [mergeRuns] using hL
  | case3 x l y r hxy ih =>
    intro hL hR
    obtain ⟨hyr, hR'⟩ := List.pairwise_cons.mp hR
    simp only [mergeRuns, hxy, if_true]
    refine List.pairwise_cons.mpr ⟨?_, ih hL hR'⟩
    intro z hz
    rcases mem_mergeRuns cmp hz with hzx | hzr
    · have hyx : cmp y x ≠ .gt := cmp_gt_asymm hs ht x y hxy
      rcases List.mem_cons.mp hzx with rfl | hzl
      · exact hyx
      · exact ht y x z hyx ((List.pairwise_cons.mp hL).1 z hzl)
    · exact hyr z hzr
  | case4 x l y r hxy ih =>
    intro hL hR
    obtain ⟨hxl, hL'⟩ := List.pairwise_cons.mp hL
    simp only [mergeRuns, hxy, if_false]
    refine List.pairwise_cons.mpr ⟨?_, ih hL' hR⟩
    intro z hz
    rcases mem_mergeRuns cmp hz with hzl | hzyr
    · exact hxl z hzl
    · rcases List.mem_cons.mp hzyr with rfl | hzr
      · exact hxy
      · exact ht x y z hxy ((List.pairwise_cons.mp hR).1 z hzr)

theorem RunSorted_insertAfterEq (x : α) :
    ∀ l : List α, RunSorted cmp l → RunSorted cmp (insertAfterEq cmp x l) := by
  intro l
  induction l with
  | nil => intro _; simp [insertAfterEq]
  | cons y t ih =>
    intro hl
    obtain ⟨hyt, ht'⟩ := List.pairwise_cons.mp hl
    by_cases hlt : cmp x y = .lt
    · simp only [insertAfterEq, if_pos hlt]
      refine List.pairwise_cons.mpr ⟨?_, hl⟩
      intro z hz
      rcases List.mem_cons.mp hz with rfl | hzt
      · simp [hlt]
      · have hxy : cmp x y ≠ .gt := by simp [hlt]
        exact ht x y z hxy (hyt z hzt)
    · simp only [insertAfterEq, if_neg hlt]
      refine List.pairwise_cons.mpr ⟨?_, ih ht'⟩
      intro z hz
      rcases mem_insertAfterEq cmp hz with hzx | hzt
      · subst hzx
        intro hgt
        exact hlt ((hs _ _).mpr hgt)
      · exact hyt z hzt

theorem filter_insertAfterEq (a0 x : α) :
    ∀ l : List α, RunSorted cmp l →
      (insertAfterEq cmp x l).filter (pEq cmp a0)
        = (l ++ [x]).filter (pEq cmp a0) := by
  intro l
  induction l with
  | nil => intro _; rfl
  | cons y t ih =>
    intro hl
    obtain ⟨hyt, ht'⟩ := List.pairwise_cons.mp hl
    by_cases hlt : cmp x y = .lt
    · simp only [insertAfterEq, if_pos hlt]
      by_cases hx : pEq cmp a0 x = true
      · have hx' : cmp x a0 = .eq := of_decide_eq_true hx
        have hnil : (y :: t).filter (pEq cmp a0) = [] := by
          refine List.filter_eq_nil_iff.mpr ?_
          intro z hz hpz
          have hz0 : cmp z a0 = .eq := of_decide_eq_true hpz
          have hyz : cmp y z ≠ .gt := by
            rcases List.mem_cons.mp hz with rfl | hzt
            · intro hgt
              have h1 := (hs z z).mpr hgt
              exact Ordering.noConfusion (hgt.symm.trans h1)
            · exact hyt z hzt
          have h1 : cmp z a0 ≠ .gt := by simp [hz0]
          have hsym := cmp_eq_symm hs ht x a0 hx'
          have h2 : cmp a0 x ≠ .gt := by simp [hsym]
          have h3 := ht y z a0 hyz h1
          have h4 := ht y a0 x h3 h2
          exact h4 ((hs x y).mp hlt)
        rw [List.filter_cons, if_pos hx, hnil, List.filter_append, hnil,
          List.nil_append]
        simp [List.filter_cons, hx]
      · rw [List.filter_cons, if_neg hx, List.filter_append]
        have hnilx : [x].filter (pEq cmp a0) = [] := by
          simp [List.filter_cons, hx]
        rw [hnilx, List.append_nil]
    · simp only [insertAfterEq, if_neg hlt, List.cons_append, List.filter_cons,
        ih ht']

theorem extendRun_fst_sorted :
    ∀ (k : Nat) (run rest : List α), RunSorted cmp run →
      RunSorted cmp (extendRun cmp run k rest).1 := by
  intro k
  induction k with
  | zero => intro run rest h; simpa [extendRun] using h
  | succ k ih =>
    intro run rest h
    cases rest with
    | nil => simpa [extendRun] using h
    | cons x rest =>
      exact ih _ rest (RunSorted_insertAfterEq hs ht x run h)

theorem filter_extendRun (a0 : α) :
    ∀ (k : Nat) (run rest : List α), RunSorted cmp run →
      ((extendRun cmp run k rest).1 ++ (extendRun cmp run k rest).2).filter
          (pEq cmp a0)
        = (run ++ rest).filter (pEq cmp a0) := by
  intro k
  induction k with
  | zero => intro run rest h; simp [extendRun]
  | succ k ih =>
    intro run rest h
    cases rest with
    | nil => simp [extendRun]
    | cons x rest =>
      show ((extendRun cmp (insertAfterEq cmp x run) k rest).1
          ++ (extendRun cmp (insertAfterEq cmp x run) k rest).2).filter (pEq cmp a0)
        = ((run ++ x :: rest).filter (pEq cmp a0))
      rw [ih _ rest (RunSorted_insertAfterEq hs ht x run h)]
      rw [List.filter_append, filter_insertAfterEq hs ht a0 x run h,
        ← List.filter_append, List.append_assoc]
      rfl

theorem ascRun_fst_sorted :
    ∀ (l : List α) (x : α), RunSorted cmp (ascRun cmp x l).1 := by
  intro l
  induction l with
  | nil => intro x; simp [ascRun]
  | cons y t ih =>
    intro x
    by_cases h : cmp x y = .gt <;> simp only [ascRun, h, if_true, if_false]
    · simp
    · refine List.pairwise_cons.mpr ⟨?_, ih y⟩
      intro z hz
      obtain ⟨r0, hr0⟩ := ascRun_fst_shape cmp t y
      rw [hr0] at hz
      rcases List.mem_cons.mp hz with rfl | hzr
      · exact h
      · have hy := ih y
        rw [hr0] at hy
        exact ht x y z h ((List.pairwise_cons.mp hy).1 z hzr)

theorem descRun_fst_pw :
    ∀ (l : List α) (x : α),
      ((descRun cmp x l).1).Pairwise (fun a b => cmp a b = .gt) := by
  intro l
  induction l with
  | nil => intro x; simp [descRun]
  | cons y t ih =>
    intro x
    by_cases h : cmp x y = .gt <;> simp only [descRun, h, if_true, if_false]
    · refine List.pairwise_cons.mpr ⟨?_, ih y⟩
      intro z hz
      obtain ⟨r0, hr0⟩ := descRun_fst_shape cmp t y
      rw [hr0] at hz
      rcases List.mem_cons.mp hz with rfl | hzr
      · exact h
      · have hy := ih y
        rw [hr0] at hy
        exact cmp_gt_trans hs ht x y z h ((List.pairwise_cons.mp hy).1 z hzr)
    · simp

theorem RunSorted_reverse_of_pw {l : List α}
    (h : l.Pairwise (fun a b => cmp a b = .gt)) : RunSorted cmp l.reverse := by
  show (l.reverse).Pairwise fun a b => cmp a b ≠ .gt
  rw [List.pairwise_reverse]
  exact h.imp fun hab => cmp_gt_asymm hs ht _ _ hab

theorem filter_length_le_one_of_pw (a0 : α) {l : List α}
    (h : l.Pairwise (fun a b => cmp a b = .gt)) :
    (l.filter (pEq cmp a0)).length ≤ 1 := by
  by_contra hlen
  push_neg at hlen
  rcases hfil : l.filter (pEq cmp a0) with _ | ⟨u, t⟩
  · rw [hfil] at hlen
    simp at hlen
  cases t with
  | nil =>
    rw [hfil] at hlen
    simp at hlen
  | cons v t2 =>
    have hpw := h.filter (pEq cmp a0)
    rw [hfil] at hpw
    have huv : cmp u v = .gt := (List.pairwise_cons.mp hpw).1 v (by simp)
    have hu : pEq cmp a0 u = true :=
      List.of_mem_filter (l := l) (by rw [hfil]; simp)
    have hv : pEq cmp a0 v = true :=
      List.of_mem_filter (l := l) (by rw [hfil]; simp)
    exact eq_class_not_gt hs ht a0 u v (of_decide_eq_true hu)
      (of_decide_eq_true hv) huv

theorem filter_reverse_eq_of_pw (a0 : α) {l : List α}
    (h : l.Pairwise (fun a b => cmp a b = .gt)) :
    (l.reverse).filter (pEq cmp a0) = l.filter (pEq cmp a0) := by
  have h1 := filter_length_le_one_of_pw hs ht a0 h
  rw [List.filter_reverse]
  rcases hfil : l.filter (pEq cmp a0) with _ | ⟨u, t⟩
  · simp
  cases t with
  | nil => simp
  | cons v t2 =>
    rw [hfil] at h1
    simp at h1

theorem nextRun_fst_sorted (minrun : Nat) :
    ∀ l : List α, RunSorted cmp (nextRun cmp minrun l).1 := by
  intro l
  match l with
  | [] => simp [nextRun]
  | [x] => simp [nextRun]
  | x :: y :: t =>
    by_cases h : cmp x y = .gt <;> simp only [nextRun, h, if_true, if_false]
    · exact extendRun_fst_sorted hs ht _ _ _
        (RunSorted_reverse_of_pw hs ht (descRun_fst_pw hs ht (y :: t) x))
    · exact extendRun_fst_sorted hs ht _ _ _ (ascRun_fst_sorted hs ht (y :: t) x)

theorem nextRun_filter (a0 : α) (minrun : Nat) :
    ∀ l : List α,
      ((nextRun cmp minrun l).1 ++ (nextRun cmp minrun l).2).filter (pEq cmp a0)
        = l.filter (pEq cmp a0) := by
  intro l
  match l with
  | [] => simp [nextRun]
  | [x] => simp [nextRun]
  | x :: y :: t =>
    by_cases h : cmp x y = .gt <;> simp only [nextRun, h, if_true, if_false]
    · rw [filter_extendRun hs ht a0 _ _ _
        (RunSorted_reverse_of_pw hs ht (descRun_fst_pw hs ht (y :: t) x))]
      rw [List.filter_append,
        filter_reverse_eq_of_pw hs ht a0 (descRun_fst_pw hs ht (y :: t) x),
        ← List.filter_append, descRun_concat]
    · rw [filter_extendRun hs ht a0 _ _ _ (ascRun_fst_sorted hs ht (y :: t) x),
        ascRun_concat]

theorem mergeCollapse_sorted :
    ∀ s : List (List α), (∀ r ∈ s, RunSorted cmp r) →
      ∀ r ∈ mergeCollapse cmp s, RunSorted cmp r := by
  intro s
  induction s using mergeCollapse.induct cmp with
  | case1 c b a rest h1 h2 ih =>
    intro hall
    simp only [mergeCollapse, if_pos h1, if_pos h2]
    refine ih ?_
    intro r hr
    rcases List.mem_cons.mp hr with rfl | hr2
    · exact hall _ (by simp)
    rcases List.mem_cons.mp hr2 with rfl | hr3
    · exact RunSorted_mergeRuns hs ht a b (hall a (by simp)) (hall b (by simp))
    · exact hall _ (by simp [hr3])
  | case2 c b a rest h1 h2 ih =>
    intro hall
    simp only [mergeCollapse, if_pos h1, if_neg h2]
    refine ih ?_
    intro r hr
    rcases List.mem_cons.mp hr with rfl | hr2
    · exact RunSorted_mergeRuns hs ht b c (hall b (by simp)) (hall c (by simp))
    · exact hall _ (by simp [hr2])
  | case3 c b a rest h1 h2 ih =>
    intro hall
    simp only [mergeCollapse, if_neg h1, if_pos h2]
    refine ih ?_
    intro r hr
    rcases List.mem_cons.mp hr with rfl | hr2
    · exact RunSorted_mergeRuns hs ht b c (hall b (by simp)) (hall c (by simp))
    · exact hall _ (by simp [hr2])
  | case4 c b a rest h1 h2 =>
    intro hall
    simp only [mergeCollapse, if_neg h1, if_neg h2]
    exact hall
  | case5 c b h =>
    intro hall
    simp only [mergeCollapse, if_pos h]
    intro r hr
    rcases List.mem_cons.mp hr with rfl | hr2
    · exact RunSorted_mergeRuns hs ht b c (hall b (by simp)) (hall c (by simp))
    · simp at hr2
  | case6 c b h =>
    intro hall
    simp only [mergeCollapse, if_neg h]
    exact hall
  | case7 s h1 h2 =>
    intro hall
    rw [mergeCollapse_other_eq cmp s h1 h2]
    exact hall

theorem mergeCollapse_filter (a0 : α) :
    ∀ s : List (List α), (∀ r ∈ s, RunSorted cmp r) →
      (flattenRuns (mergeCollapse cmp s)).filter (pEq cmp a0)
        = (flattenRuns s).filter (pEq cmp a0) := by
  intro s
  induction s using mergeCollapse.induct cmp with
  | case1 c b a rest h1 h2 ih =>
    intro hall
    simp only [mergeCollapse, if_pos h1, if_pos h2]
    rw [ih ?hall2]
    case hall2 =>
      intro r hr
      rcases List.mem_cons.mp hr with rfl | hr2
      · exact hall _ (by simp)
      rcases List.mem_cons.mp hr2 with rfl | hr3
      · exact RunSorted_mergeRuns hs ht a b (hall a (by simp)) (hall b (by simp))
      · exact hall _ (by simp [hr3])
    simp only [flattenRuns_cons, List.filter_append]
    rw [filter_mergeRuns hs ht a0 a b (hall a (by simp)) (hall b (by simp))]
    simp [List.append_assoc]
  | case2 c b a rest h1 h2 ih =>
    intro hall
    simp only [mergeCollapse, if_pos h1, if_neg h2]
    rw [ih ?hall2]
    case hall2 =>
      intro r hr
      rcases List.mem_cons.mp hr with rfl | hr2
      · exact RunSorted_mergeRuns hs ht b c (hall b (by simp)) (hall c (by simp))
      · exact hall _ (by simp [hr2])
    simp only [flattenRuns_cons, List.filter_append]
    rw [filter_mergeRuns hs ht a0 b c (hall b (by simp)) (hall c (by simp))]
    simp [List.append_assoc]
  | case3 c b a rest h1 h2 ih =>
    intro hall
    simp only [mergeCollapse, if_neg h1, if_pos h2]
    rw [ih ?hall2]
    case hall2 =>
      intro r hr
      rcases List.mem_cons.mp hr with rfl | hr2
      · exact RunSorted_mergeRuns hs ht b c (hall b (by simp)) (hall c (by simp))
      · exact hall _ (by simp [hr2])
    simp only [flattenRuns_cons, List.filter_append]
    rw [filter_mergeRuns hs ht a0 b c (hall b (by simp)) (hall c (by simp))]
    simp [List.append_assoc]
  | case4 c b a rest h1 h2 =>
    intro _
    simp only [mergeCollapse, if_neg h1, if_neg h2]
  | case5 c b h =>
    intro hall
    simp only [mergeCollapse, if_pos h]
    simp only [flattenRuns_cons, flattenRuns_nil, List.nil_append,
      List.filter_append]
    rw [filter_mergeRuns hs ht a0 b c (hall b (by simp)) (hall c (by simp))]
  | case6 c b h =>
    intro _
    simp only [mergeCollapse, if_neg h]
  | case7 s h1 h2 =>
    intro _
    rw [mergeCollapse_other_eq cmp s h1 h2]

theorem sortLoop_sorted (minrun : Nat) :
    ∀ (stack : List (List α)) (input : List α),
      (∀ r ∈ stack, RunSorted cmp r) →
      ∀ r ∈ sortLoop cmp minrun stack input, RunSorted cmp r := by
  intro stack input
  induction stack, input using sortLoop.induct cmp minrun with
  | case1 stack => intro h; simpa [sortLoop] using h
  | case2 stack x rest ih =>
    intro hall
    rw [sortLoop]
    refine ih ?_
    refine mergeCollapse_sorted hs ht _ ?_
    intro r hr
    rcases List.mem_cons.mp hr with rfl | hr2
    · exact nextRun_fst_sorted hs ht minrun (x :: rest)
    · exact hall r hr2

theorem sortLoop_filter (a0 : α) (minrun : Nat) :
    ∀ (stack : List (List α)) (input : List α),
      (∀ r ∈ stack, RunSorted cmp r) →
      (flattenRuns (sortLoop cmp minrun stack input)).filter (pEq cmp a0)
        = (flattenRuns stack ++ input).filter (pEq cmp a0) := by
  intro stack input
  induction stack, input using sortLoop.induct cmp minrun with
  | case1 stack => intro _; simp [sortLoop]
  | case2 stack x rest ih =>
    intro hall
    have hpre : ∀ r ∈ (nextRun cmp minrun (x :: rest)).1 :: stack,
        RunSorted cmp r := by
      intro r hr
      rcases List.mem_cons.mp hr with rfl | hr2
      · exact nextRun_fst_sorted hs ht minrun (x :: rest)
      · exact hall r hr2
    rw [sortLoop, ih (mergeCollapse_sorted hs ht _ hpre)]
    rw [List.filter_append, mergeCollapse_filter hs ht a0 _ hpre,
      flattenRuns_cons, List.filter_append, List.append_assoc,
      ← List.filter_append, nextRun_filter hs ht a0 minrun (x :: rest),
      ← List.filter_append]

theorem forceCollapse_filter (a0 : α) :
    ∀ s : List (List α), (∀ r ∈ s, RunSorted cmp r) →
      (forceCollapse cmp s).filter (pEq cmp a0)
        = (flattenRuns s).filter (pEq cmp a0) := by
  intro s
  induction s using forceCollapse.induct cmp with
  | case1 => intro _; simp [forceCollapse, flattenRuns_nil]
  | case2 r =>
    intro _
    simp [forceCollapse, flattenRuns_cons, flattenRuns_nil]
  | case3 c b rest ih =>
    intro hall
    rw [forceCollapse, ih ?hall2]
    case hall2 =>
      intro r hr
      rcases List.mem_cons.mp hr with rfl | hr2
      · exact RunSorted_mergeRuns hs ht b c (hall b (by simp)) (hall c (by simp))
      · exact hall _ (by simp [hr2])
    simp only [flattenRuns_cons, List.filter_append]
    rw [filter_mergeRuns hs ht a0 b c (hall b (by simp)) (hall c (by simp))]
    simp [List.append_assoc]

theorem timsort_stable (l : List α) (a0 : α) :
    (timsort cmp l).filter (pEq cmp a0) = l.filter (pEq cmp a0) := by
  unfold timsort
  rw [forceCollapse_filter hs ht a0 _
    (sortLoop_sorted hs ht _ [] l (by simp))]
  rw [sortLoop_filter hs ht a0 _ [] l (by simp)]
  simp [flattenRuns_nil]

end SortStable

/-! ## Claim theorems (sort) -/

/-- C10: for every input sequence and every comparator — even one that is
not a consistent total order — `sort` and `sorted` produce a permutation of
the input (same elements, same multiplicities, unchanged length). -/
theorem sort_permutation_c10 :
    ∀ (α : Type) (cmp : α → α → Ordering) (l : List α),
      (timsort cmp l).Perm l
      ∧ (sortedCopy cmp l).Perm l
      ∧ (timsort cmp l).length = l.length
      ∧ (sortedCopy cmp l).length = l.length
      ∧ ∀ (_ : DecidableEq α) (a : α), (timsort cmp l).count a = l.count a := by
  intro α cmp l
  have h1 := timsort_perm cmp l
  have h2 : (sortedCopy cmp l).Perm l := by
    unfold sortedCopy
    rw [List.append_nil]
    exact timsort_perm cmp l
  exact ⟨h1, h2, h1.length_eq, h2.length_eq, fun _ a => h1.count_eq a⟩

/-- C10 witness: the sort of a concrete list has the input's length. -/
theorem sort_permutation_c10_witness :
    (timsort (fun a b : Nat => compare a b) [3, 1, 2]).length
      = [3, 1, 2].length :=
  (sort_permutation_c10 Nat (fun a b => compare a b) [3, 1, 2]).2.2.1

/-- C6: for every comparator that is a consistent total order (`lt`/`gt`
swap-consistent and transitive below `gt`), the sort is stable — for every
pivot `a0`, the subsequence of elements the comparator reports `Equal` to
`a0` is preserved exactly, so no two elements compared `Equal` are ever
reordered; in particular, sorting `[(1,"a"),(1,"b"),(2,"c")]` by first
component returns the list unchanged. -/
theorem sort_stability_c6 :
    (∀ (α : Type) (cmp : α → α → Ordering),
      (∀ a b, cmp a b = .lt ↔ cmp b a = .gt) →
      (∀ a b c, cmp a b ≠ .gt → cmp b c ≠ .gt → cmp a c ≠ .gt) →
      ∀ (l : List α) (a0 : α),
        (timsort cmp l).filter (pEq cmp a0) = l.filter (pEq cmp a0))
    ∧ timsort cmpFst [(1, "a"), (1, "b"), (2, "c")]
        = [(1, "a"), (1, "b"), (2, "c")] := by
  constructor
  · intro α cmp hs ht l a0
    exact timsort_stable hs ht l a0
  · simp [timsort, sortLoop, nextRun, ascRun, descRun, extendRun, insertAfterEq,
      mergeCollapse, mergeRuns, forceCollapse, minrunSpec, minrunAux, cmpFst,
      compare, compareOfLessAndEq]

/-- C6 witness: stability applied to the concrete pair comparator (whose
laws are discharged for `Nat.compare` on first components) and the spec's
scenario list. -/
theorem sort_stability_c6_witness :
    (timsort cmpFst [(1, "a"), (1, "b"), (2, "c")]).filter
        (pEq cmpFst (1, "q"))
      = [(1, "a"), (1, "b"), (2, "c")].filter (pEq cmpFst (1, "q")) :=
  sort_stability_c6.1 (Nat × String) cmpFst
    (by
      intro a b
      simp [cmpFst, Nat.compare_eq_lt, Nat.compare_eq_gt])
    (by
      intro a b c
      simp [cmpFst, Nat.compare_eq_gt]
      omega)
    [(1, "a"), (1, "b"), (2, "c")] (1, "q")

end PyDS
